import Mathlib

/-!
# Verification of the vsb block two-phase append protocol

Shallow embedding of `internal/store/vsb/block_append.go`: the append
context, fragment trimming (`trimFragments`), contiguity checking
(`checkFragments`), index building (`buildIndexes`), and the two-phase
append operations (`NewAppendContext`, `PrepareAppend`, `CommitAppend`).

Entries, fragments, the entry codec and the index record type live in
packages outside the embedded file; they are modelled from the spec
(wire format of §6, fragment construction of §4.2, index record of §3).
A fragment payload is modelled as its list of whole encoded entries
(the spec's invariant: "the payload is a concatenation of whole encoded
entries (no partial entries)"), with byte offsets recovered from the
codec size of each entry.

Machine integers (`int64` offsets and sequence numbers) are modelled as
unbounded `Int`: no offset or sequence arithmetic in this code relies on
wraparound.
-/

namespace Vsb

/-- Modelled from the spec: the entry type tag (`CloudEvent` | `End`);
`ceschema.CloudEvent` and `ceschema.End` in the source. -/
inductive EntryType where
  | CloudEvent
  | End
deriving DecidableEq, Repr

/-- Modelled from the spec: a wrapped entry as the codec sees it — type
tag, sequence number, timestamp, and the sizes of its attribute section
and payload (the contents of attributes/payload do not influence any of
the embedded control flow, only their encoded sizes do). -/
structure Entry where
  etype : EntryType
  seq : Int
  timestamp : Int
  attrsSize : Nat
  payloadSize : Nat
deriving DecidableEq, Repr

/-- Modelled from the spec: the un-wrapped user entry handed to
`PrepareAppend` (`block.Entry` before `wrapEntry`): only its encoded
attribute/payload sizes matter to the embedded code. -/
structure EntryExt where
  attrsSize : Nat
  payloadSize : Nat
deriving DecidableEq, Repr

/-- `wrapEntry(entry, type, seq, now)` of the source: stamps type,
sequence number and timestamp onto a user entry. -/
def wrapEntry (ext : EntryExt) (t : EntryType) (seq : Int) (now : Int) : Entry :=
  { etype := t, seq := seq, timestamp := now
    attrsSize := ext.attrsSize, payloadSize := ext.payloadSize }

/-- Modelled from the spec: `codec.size(entry)` — the §6 wire format is
leading length (4B), type (1B), seq (8B), timestamp (8B), attribute
count (2B), the attribute bytes, payload length (4B), the payload bytes,
trailing length (4B): 31 fixed bytes plus attributes plus payload. -/
def codecSize (e : Entry) : Nat :=
  31 + e.attrsSize + e.payloadSize

/-- Total encoded size of a list of entries. -/
def totalSize (es : List Entry) : Nat :=
  es.foldr (fun e n => codecSize e + n) 0

/-- Modelled from the spec: a fragment is an immutable
`{startOffset, payload}` where the payload is a concatenation of whole
encoded entries. -/
structure Fragment where
  startOffset : Int
  payload : List Entry
deriving DecidableEq, Repr

/-- `frag.Size()`: byte length of the payload. -/
def Fragment.size (f : Fragment) : Nat :=
  totalSize f.payload

/-- `frag.EndOffset() = startOffset + len(payload)`. -/
def Fragment.endOffset (f : Fragment) : Int :=
  f.startOffset + (f.size : Int)

/-- Modelled from the spec (§4.2): `newFragment(startOffset, ents, enc)`
marshals the entries back-to-back into one buffer starting at
`startOffset`; in the entry-list model the buffer is the entry list. -/
def newFragment (startOffset : Int) (ents : List Entry) : Fragment :=
  { startOffset := startOffset, payload := ents }

/-- Modelled from the spec: an index record `{offset, length, seq}`
(`index.NewIndex(base+off, n, index.WithEntry(entry))` in the source;
the extracted attributes are not modelled, they never influence
control flow). -/
structure Index where
  offset : Int
  length : Int
  seq : Int
deriving DecidableEq, Repr

/-- `appendContext` of the source: `{seq, offset, archived}`. The Go
field is a `uint32` written atomically; its only values are 0 and 1, so
it is modelled as `Bool`. -/
structure appendContext where
  seq : Int
  offset : Int
  archived : Bool
deriving DecidableEq, Repr

/-- `(c *appendContext) size(dataOffset)` of the source. -/
def appendContext.size (c : appendContext) (dataOffset : Int) : Int :=
  c.offset - dataOffset

/-- The `vsBlock` fields read or written by the embedded code: header
geometry, the canonical append context, the in-memory index table, and
the data file (modelled as the log of successful `WriteAt` calls:
offset written at, entries written). -/
structure vsBlock where
  dataOffset : Int
  capacity : Int
  actx : appendContext
  indexes : List Index
  file : List (Int × List Entry)
deriving DecidableEq, Repr

/-- Modelled from the spec: `dec.UnmarshalLast` decodes the last entry
of a buffer (O(1) via the trailing length); `none` when the buffer is
empty (the source ignores the decode error and would fault on a nil
entry). -/
def UnmarshalLast (payload : List Entry) : Option Entry :=
  payload.getLast?

/-- `NewAppendContext(last)` of the source: with a last fragment, decode
its last entry and return `{seq = lastSeq+1, offset = last.EndOffset(),
archived = (lastType == End)}`; otherwise return a copy of the canonical
context. -/
def NewAppendContext (b : vsBlock) (last : Option Fragment) : Option appendContext :=
  match last with
  | some frag =>
    match UnmarshalLast frag.payload with
    | some entry =>
      some { seq := entry.seq + 1, offset := frag.endOffset
             archived := decide (entry.etype = EntryType.End) }
    | none => none
  | none => some b.actx

/-- Result record of `PrepareAppend`: the (unchanged) block, the
assigned sequence numbers, the new fragment, the advanced detached
context, and the `full` hint. The source returns no error on any path. -/
structure PrepareResult where
  blk : vsBlock
  seqs : List Int
  frag : Fragment
  actx : appendContext
  full : Bool
deriving DecidableEq, Repr

/-- `PrepareAppend(ctx, appendCtx, entries...)` of the source: wrap each
entry with type `CloudEvent`, sequence `actx.seq + i` and the current
timestamp, build one fragment at `actx.offset`, advance the detached
context by the fragment size and entry count, and report
`actx.size(dataOffset) >= capacity` on the advanced context. The block
receiver is only read (`enc`, `dataOffset`, `capacity`); it is returned
unchanged to make that explicit. -/
def PrepareAppend (b : vsBlock) (actx : appendContext) (entries : List EntryExt)
    (now : Int) : PrepareResult :=
  let num : Int := entries.length
  let ents := entries.enum.map fun p => wrapEntry p.2 EntryType.CloudEvent (actx.seq + p.1) now
  let seqs := (List.range entries.length).map fun i => actx.seq + i
  let frag := newFragment actx.offset ents
  let actx2 : appendContext :=
    { actx with offset := actx.offset + (frag.size : Int), seq := actx.seq + num }
  { blk := b, seqs := seqs, frag := frag, actx := actx2
    full := decide (actx2.size b.dataOffset ≥ b.capacity) }

/-- The commit error taxonomy of the source: `errors.ErrInternal`,
`errCorruptedFragment`, and file I/O errors. -/
inductive CommitErr where
  | internal
  | corrupted
  | io
deriving DecidableEq, Repr

/-- `trimFragments` of the source: walk fragments from the front;
discard a fragment whose `EndOffset() <= off` (already durable), fail
with `ErrInternal` when `StartOffset() > off` (gap), otherwise keep the
fragment and the whole remaining suffix. -/
def trimFragments (off : Int) : List Fragment → Except CommitErr (List Fragment)
  | [] => Except.ok []
  | f :: rest =>
    if f.endOffset ≤ off then trimFragments off rest
    else if f.startOffset > off then Except.error CommitErr.internal
    else Except.ok (f :: rest)

/-- `checkFragments` of the source: `true` when every adjacent pair
satisfies `prev.EndOffset() == next.StartOffset()`. The commented-out
head check against the canonical offset is absent, as in the source. -/
def checkFragments : List Fragment → Bool
  | f :: g :: rest =>
    if f.endOffset = g.startOffset then checkFragments (g :: rest) else false
  | _ => true

/-- Outcome of the `buildIndexes` scan loop: the built index records,
the final `expected` counter and the `archived` flag; `corrupted` for
`errCorruptedFragment`; `diverge` when the loop does not terminate
(fuel exhausted — see `buildIndexesGo`). -/
inductive BuildRes where
  | ok (indexes : List Index) (expected : Int) (archived : Bool)
  | corrupted
  | diverge
deriving DecidableEq, Repr

/-- The scan loop of `buildIndexes` in the source, one constructor case
per iteration, with explicit fuel. `off` is the byte offset of the next
entry inside the coalesced buffer; since the buffer is a list of whole
entries, `Unmarshal(data[off:])` decodes the head entry with
`n = codecSize`, the loop guard `off < sz` is "entries remain", and the
End-placement test `off + n == sz` is "no entry follows" (codec sizes
are positive). The source's skip case is `continue` in a `for` loop
whose post statement is empty and whose `off += n` sits at the bottom of
the body, so it re-decodes the same bytes with unchanged state: the
model recurses on identical arguments, consuming only fuel. -/
def buildIndexesGo (base : Int) :
    Nat → Nat → List Entry → Int → List Index → BuildRes
  | 0, _, _, _, _ => BuildRes.diverge
  | _ + 1, _, [], expected, indexes => BuildRes.ok indexes expected false
  | fuel + 1, off, e :: rest, expected, indexes =>
    let n := codecSize e
    if e.seq = expected then
      if e.etype = EntryType.End then
        if rest = [] then BuildRes.ok indexes (expected + 1) true
        else BuildRes.corrupted
      else
        buildIndexesGo base fuel (off + n) rest (expected + 1)
          (indexes ++ [{ offset := base + (off : Int), length := (n : Int), seq := e.seq }])
    else if e.seq < expected ∧ indexes = [] then
      buildIndexesGo base fuel off (e :: rest) expected indexes
    else BuildRes.corrupted

/-- `buildIndexes(ctx, base, data)` of the source: scan the coalesced
buffer from the front with `expected = b.actx.seq`. Fuel
`data.length + 1` covers every terminating execution (each iteration
that is not the skip case consumes one entry); only the skip case can
exhaust it. -/
def buildIndexes (b : vsBlock) (base : Int) (data : List Entry) : BuildRes :=
  buildIndexesGo base (data.length + 1) 0 data b.actx.seq []

/-- The coalesce step of `CommitAppend`: one buffer holding the kept
fragments' payloads, each copied at `StartOffset() - base`. It runs only
after `checkFragments` has established contiguity, where the copies are
exactly back-to-back concatenation. -/
def coalesce (frags : List Fragment) : List Entry :=
  (frags.map Fragment.payload).flatten

/-- The suffix `data[k:]` of a coalesced buffer, with `k` a byte count:
drops whole leading entries while bytes remain to skip. `CommitAppend`
uses it with `k = actx.offset - base`, which lands on an entry boundary
whenever the buffer's entries are whole. -/
def dropBytes (k : Int) : List Entry → List Entry
  | [] => []
  | e :: rest => if k ≤ 0 then e :: rest else dropBytes (k - (codecSize e : Int)) rest

/-- Result of `CommitAppend`: `ok archived` for a nil-error return,
`err e` for a non-nil error, `diverge` when the call never returns
(the buildIndexes skip loop). -/
inductive CommitRes where
  | ok (archived : Bool)
  | err (e : CommitErr)
  | diverge
deriving DecidableEq, Repr

/-- The in-memory commit of `CommitAppend` steps 6-7 on the success
path: the file gains the buffer suffix `data[actx.offset-base:]`
written at `actx.offset` (`WriteAt` reports
`entrySize = len(data) - (actx.offset - base)` bytes written), the
index table gains the new records, `seq` advances by the entry count,
`offset` by `entrySize`, and `archived` is set only when the scan saw
an `End` entry. -/
def commitUpdate (b : vsBlock) (base : Int) (data : List Entry)
    (idxs : List Index) (entryCount : Int) (archived : Bool) : vsBlock :=
  { b with
      actx :=
        { seq := b.actx.seq + entryCount
          offset := b.actx.offset + ((totalSize data : Int) - (b.actx.offset - base))
          archived := if archived then true else b.actx.archived }
      indexes := b.indexes ++ idxs
      file := b.file ++ [(b.actx.offset, dropBytes (b.actx.offset - base) data)] }

set_option linter.unusedVariables false in
/-- `CommitAppend(ctx, frags...)` of the source: trim, empty check,
contiguity check, coalesce, build indexes, short-circuit when nothing
new, write the buffer suffix at the canonical offset, then advance the
canonical context and append the index records. `writeOk` models the
outcome of `f.WriteAt` (which on success writes
`len(data) - (actx.offset - base)` bytes); `cancelled` models the state
of the caller's `ctx` — the source passes `ctx` only to the tracer and
never consults `ctx.Done()` or `ctx.Err()`, so no branch reads it. The
archival background task and listener touch neither the canonical
context nor the index table and are not modelled. -/
def CommitAppend (writeOk : Bool) (cancelled : Bool) (b : vsBlock)
    (frags : List Fragment) : vsBlock × CommitRes :=
  match trimFragments b.actx.offset frags with
  | Except.error e => (b, CommitRes.err e)
  | Except.ok [] => (b, CommitRes.ok false)
  | Except.ok (f :: rest) =>
    if checkFragments (f :: rest) then
      match buildIndexes b f.startOffset (coalesce (f :: rest)) with
      | BuildRes.corrupted => (b, CommitRes.err CommitErr.corrupted)
      | BuildRes.diverge => (b, CommitRes.diverge)
      | BuildRes.ok idxs expected archived =>
        if archived = false ∧ idxs = [] then (b, CommitRes.ok false)
        else if writeOk = false then (b, CommitRes.err CommitErr.io)
        else (commitUpdate b f.startOffset (coalesce (f :: rest)) idxs
                (expected - b.actx.seq) archived,
              CommitRes.ok archived)
    else (b, CommitRes.err CommitErr.internal)

/-- The trim phase exactly as the spec's words state it, for comparison
with `trimFragments`: drop every leading fragment whose `endOffset` is
at or below the canonical offset; if the first remaining fragment
starts above the canonical offset fail `Internal`; otherwise keep the
remaining suffix. -/
def specTrimFragments (off : Int) (frags : List Fragment) :
    Except CommitErr (List Fragment) :=
  match frags.dropWhile (fun f => decide (f.endOffset ≤ off)) with
  | [] => Except.ok []
  | f :: rest =>
    if f.startOffset > off then Except.error CommitErr.internal
    else Except.ok (f :: rest)

/-! ## Basic lemmas about sizes and trimming -/

theorem codecSize_pos (e : Entry) : 0 < codecSize e := by
  simp [codecSize]

theorem totalSize_nil : totalSize [] = 0 := rfl

theorem totalSize_cons (e : Entry) (es : List Entry) :
    totalSize (e :: es) = codecSize e + totalSize es := rfl

theorem totalSize_append (xs ys : List Entry) :
    totalSize (xs ++ ys) = totalSize xs + totalSize ys := by
  induction xs with
  | nil => simp [totalSize]
  | cons e es ih => simp [totalSize_cons, ih]; omega

/-- A fragment discarded by trim for one canonical offset stays
discarded for any larger offset; in particular, if every fragment's end
is at or below the offset the whole list is trimmed away. -/
theorem trimFragments_all_dropped (off : Int) (L : List Fragment)
    (h : ∀ f ∈ L, f.endOffset ≤ off) :
    trimFragments off L = Except.ok [] := by
  induction L with
  | nil => rfl
  | cons f rest ih =>
    rw [trimFragments, if_pos (h f (List.mem_cons_self f rest))]
    exact ih fun g hg => h g (List.mem_cons_of_mem f hg)

/-- Every fragment of the input is either discarded by trim (its end is
at or below the canonical offset) or belongs to the kept suffix. -/
theorem trimFragments_mem (off : Int) (L kept : List Fragment)
    (h : trimFragments off L = Except.ok kept) :
    ∀ g ∈ L, g.endOffset ≤ off ∨ g ∈ kept := by
  induction L with
  | nil => simp
  | cons f rest ih =>
    intro g hg
    rw [trimFragments] at h
    by_cases h1 : f.endOffset ≤ off
    · rw [if_pos h1] at h
      rcases List.mem_cons.mp hg with rfl | hg2
      · exact Or.inl h1
      · exact ih h g hg2
    · rw [if_neg h1] at h
      by_cases h2 : f.startOffset > off
      · rw [if_pos h2] at h; cases h
      · rw [if_neg h2] at h
        cases h
        exact Or.inr hg

/-- The head fragment kept by trim straddles the canonical offset:
its start is at or below it and its end strictly above it. -/
theorem trimFragments_head (off : Int) (L : List Fragment) (f : Fragment)
    (rest : List Fragment) (h : trimFragments off L = Except.ok (f :: rest)) :
    f.startOffset ≤ off ∧ off < f.endOffset := by
  induction L with
  | nil => cases h
  | cons f0 rest0 ih =>
    rw [trimFragments] at h
    by_cases h1 : f0.endOffset ≤ off
    · rw [if_pos h1] at h
      exact ih h
    · rw [if_neg h1] at h
      by_cases h2 : f0.startOffset > off
      · rw [if_pos h2] at h; cases h
      · rw [if_neg h2] at h
        cases h
        exact ⟨le_of_not_lt h2, lt_of_not_le h1⟩

/-- Contiguous fragments all end at or before the end of the coalesced
buffer that starts at the head fragment's start offset. -/
theorem checkFragments_end_le (f : Fragment) (rest : List Fragment)
    (h : checkFragments (f :: rest) = true) :
    ∀ g ∈ f :: rest,
      g.endOffset ≤ f.startOffset + (totalSize (coalesce (f :: rest)) : Int) := by
  induction rest generalizing f with
  | nil =>
    intro g hg
    rcases List.mem_cons.mp hg with rfl | hg2
    · simp [coalesce, Fragment.endOffset, Fragment.size]
    · cases hg2
  | cons g0 rest2 ih =>
    intro g hg
    rw [checkFragments] at h
    by_cases hfg : f.endOffset = g0.startOffset
    · rw [if_pos hfg] at h
      have hco : totalSize (coalesce (f :: g0 :: rest2)) =
          totalSize f.payload + totalSize (coalesce (g0 :: rest2)) := by
        simp [coalesce, totalSize_append]
      rcases List.mem_cons.mp hg with rfl | hg2
      · have : (0 : Int) ≤ (totalSize (coalesce (g0 :: rest2)) : Int) := Int.natCast_nonneg _
        simp only [Fragment.endOffset, Fragment.size, hco]
        push_cast
        omega
      · have hg0 := ih g0 h g hg2
        have hend : f.endOffset = f.startOffset + (totalSize f.payload : Int) := rfl
        rw [hfg] at hend
        simp only [hco]
        push_cast
        push_cast at hg0 hend
        omega
    · rw [if_neg hfg] at h
      cases h

/-! ## Claim theorems -/

/-- Claim C10: committing an empty fragment list returns `(false, nil)`
and leaves the canonical append context, the index table and the file
untouched. -/
theorem commitAppend_empty (w c : Bool) (b : vsBlock) :
    CommitAppend w c b [] = (b, CommitRes.ok false) := rfl

/-- Claim C5 (amended): `CommitAppend` never consults the caller's
cancellation token — the `ctx` argument is passed only to the tracer —
so its result and state change are identical whether or not the token
has fired. -/
theorem commitAppend_ignores_cancellation (w : Bool) (b : vsBlock)
    (frags : List Fragment) :
    CommitAppend w true b frags = CommitAppend w false b frags := rfl

/-- Claim C5 counterexample: on a fresh block with the cancellation
token already fired before the call (hence before the file write),
`CommitAppend` does not abort with a Cancelled error and does change
state: it returns `(false, nil)` having written the fragment and
advanced the canonical offset from 64 to 95. -/
theorem commitAppend_cancelled_commits_anyway :
    (CommitAppend true true ⟨64, 1000, ⟨0, 64, false⟩, [], []⟩
        [⟨64, [⟨EntryType.CloudEvent, 0, 0, 0, 0⟩]⟩]).2 = CommitRes.ok false ∧
    (CommitAppend true true ⟨64, 1000, ⟨0, 64, false⟩, [], []⟩
        [⟨64, [⟨EntryType.CloudEvent, 0, 0, 0, 0⟩]⟩]).1.actx.offset = 95 := by
  decide

/-- In the skip case of the `buildIndexes` loop (sequence below
`expected`, no index built yet) the `continue` re-runs the loop with
nothing changed — `off` is not advanced — so the loop never terminates,
whatever fuel it is given. -/
theorem buildIndexesGo_skip_diverges (base : Int) (off : Nat) (e : Entry)
    (rest : List Entry) (expected : Int) (h : e.seq < expected) :
    ∀ fuel, buildIndexesGo base fuel off (e :: rest) expected [] = BuildRes.diverge := by
  intro fuel
  induction fuel with
  | zero => rfl
  | succ n ih =>
    rw [buildIndexesGo]
    rw [if_neg (Int.ne_of_lt h), if_pos ⟨h, rfl⟩]
    exact ih

/-- Claim C3 is wrong about the code: on a kept fragment whose buffer
begins below the canonical offset, the scan does not skip the leading
already-committed entry and proceed — the skip case's `continue` never
advances `off` (the `off += n` at the bottom of the loop body is
skipped and the `for` loop has no post statement), so the same entry is
re-decoded forever and `CommitAppend` never returns. Concretely: with
canonical context `{seq 2, offset 126}`, a single fragment `[95,157)`
holding entries with sequences 1 and 2 (31 bytes each) overlaps the
canonical offset; the spec says entry 1 is skipped and entry 2 is
committed, but the scan diverges for every fuel bound and the
whole-call model reports divergence. -/
theorem commitAppend_overlap_skip_diverges :
    (∀ fuel, buildIndexesGo 95 fuel 0
        [⟨EntryType.CloudEvent, 1, 0, 0, 0⟩, ⟨EntryType.CloudEvent, 2, 0, 0, 0⟩]
        2 [] = BuildRes.diverge) ∧
    CommitAppend true true ⟨64, 1000, ⟨2, 126, false⟩, [], []⟩
        [⟨95, [⟨EntryType.CloudEvent, 1, 0, 0, 0⟩, ⟨EntryType.CloudEvent, 2, 0, 0, 0⟩]⟩] =
      (⟨64, 1000, ⟨2, 126, false⟩, [], []⟩, CommitRes.diverge) := by
  constructor
  · exact buildIndexesGo_skip_diverges 95 0 _ _ 2 (by decide)
  · decide

/-- Claim C8 (amended): for a decoded entry that passes the sequence
check (`seq == expected`) and has type `End`: if another entry follows
it in the buffer (its encoding does not end at the last byte) the scan
fails `Corrupted`; if it ends the buffer the scan stops with no index
record built for it, the counter advanced past it, and `archived`
true. An `End` entry that fails the sequence check never reaches
terminal handling. -/
theorem buildIndexes_end_entry_terminal (base : Int) (off : Nat) (e : Entry)
    (rest : List Entry) (expected : Int) (indexes : List Index) (fuel : Nat)
    (hend : e.etype = EntryType.End) (hseq : e.seq = expected) :
    buildIndexesGo base (fuel + 1) off (e :: rest) expected indexes =
      if rest = [] then BuildRes.ok indexes (expected + 1) true
      else BuildRes.corrupted := by
  rw [buildIndexesGo, if_pos hseq, if_pos hend]

theorem buildIndexes_end_entry_terminal_witness :
    buildIndexesGo 0 1 0 [⟨EntryType.End, 3, 0, 0, 0⟩] 3 [] = BuildRes.ok [] 4 true := by
  have h := buildIndexes_end_entry_terminal 0 0 ⟨EntryType.End, 3, 0, 0, 0⟩ [] 3 [] 0 rfl rfl
  simpa using h

/-- Claim C8 counterexample: the claimed behavior "an `End` entry that
ends the buffer stops the scan and sets archived" does not hold
unconditionally — the sequence check runs first. With canonical
sequence 5, a fragment whose single entry is `End` with sequence 7 ends
the buffer exactly, yet the commit fails `Corrupted` and `archived`
stays false. -/
theorem commitAppend_end_seq_mismatch_not_archived :
    CommitAppend true true ⟨64, 1000, ⟨5, 64, false⟩, [], []⟩
        [⟨64, [⟨EntryType.End, 7, 0, 0, 0⟩]⟩] =
      (⟨64, 1000, ⟨5, 64, false⟩, [], []⟩, CommitRes.err CommitErr.corrupted) := by
  decide

/-- Claim C1: the trim phase is exactly the spec's front-to-back walk —
discard a fragment already durable, fail `Internal` on a gap, keep the
first straddling fragment and everything after it — and when every
fragment is discarded `CommitAppend` returns `(false, nil)` leaving the
block untouched. -/
theorem trimFragments_matches_spec (off : Int) (frags : List Fragment)
    (w c : Bool) (b : vsBlock) :
    trimFragments off frags = specTrimFragments off frags ∧
    ((∀ f ∈ frags, f.endOffset ≤ b.actx.offset) →
      CommitAppend w c b frags = (b, CommitRes.ok false)) := by
  constructor
  · induction frags with
    | nil => rfl
    | cons f rest ih =>
      rw [trimFragments]
      unfold specTrimFragments
      rw [List.dropWhile_cons]
      by_cases h1 : f.endOffset ≤ off
      · rw [if_pos h1, if_pos (by simp [h1] : decide (f.endOffset ≤ off) = true)]
        rw [ih]
        rfl
      · rw [if_neg h1, if_neg (by simp [h1] : ¬ decide (f.endOffset ≤ off) = true)]
  · intro h
    have ht := trimFragments_all_dropped b.actx.offset frags h
    unfold CommitAppend
    rw [ht]

theorem trimFragments_matches_spec_witness :
    trimFragments 126
        [⟨64, [⟨EntryType.CloudEvent, 0, 0, 0, 0⟩, ⟨EntryType.CloudEvent, 1, 0, 0, 0⟩]⟩] =
      specTrimFragments 126
        [⟨64, [⟨EntryType.CloudEvent, 0, 0, 0, 0⟩, ⟨EntryType.CloudEvent, 1, 0, 0, 0⟩]⟩] ∧
    CommitAppend true true ⟨64, 1000, ⟨2, 126, false⟩, [], []⟩
        [⟨64, [⟨EntryType.CloudEvent, 0, 0, 0, 0⟩, ⟨EntryType.CloudEvent, 1, 0, 0, 0⟩]⟩] =
      (⟨64, 1000, ⟨2, 126, false⟩, [], []⟩, CommitRes.ok false) := by
  exact ⟨(trimFragments_matches_spec 126 _ true true ⟨64, 1000, ⟨2, 126, false⟩, [], []⟩).1,
         (trimFragments_matches_spec 126 _ true true ⟨64, 1000, ⟨2, 126, false⟩, [], []⟩).2
           (by decide)⟩

/-- Claim C4: whenever `CommitAppend` returns a non-nil error — trim
gap, discontinuous fragments, corrupted buffer, or file write failure —
the canonical append context and the in-memory index table are exactly
as they were before the call. -/
theorem commitAppend_error_no_mutation (w c : Bool) (b : vsBlock)
    (frags : List Fragment) (b2 : vsBlock) (e : CommitErr)
    (h : CommitAppend w c b frags = (b2, CommitRes.err e)) :
    b2.actx = b.actx ∧ b2.indexes = b.indexes := by
  suffices hb : b2 = b by rw [hb]; exact ⟨rfl, rfl⟩
  unfold CommitAppend at h
  split at h
  · injection h with h1 h2; exact h1.symm
  · injection h with h1 h2; cases h2
  · split at h
    · split at h
      · injection h with h1 h2; exact h1.symm
      · injection h with h1 h2; cases h2
      · split at h
        · injection h with h1 h2; cases h2
        · split at h
          · injection h with h1 h2; exact h1.symm
          · injection h with h1 h2; cases h2
    · injection h with h1 h2; exact h1.symm

theorem commitAppend_error_no_mutation_witness :
    (⟨64, 1000, ⟨0, 64, false⟩, [], []⟩ : vsBlock).actx = ⟨0, 64, false⟩ ∧
    (⟨64, 1000, ⟨0, 64, false⟩, [], []⟩ : vsBlock).indexes = [] := by
  exact commitAppend_error_no_mutation true true ⟨64, 1000, ⟨0, 64, false⟩, [], []⟩
    [⟨100, [⟨EntryType.CloudEvent, 0, 0, 0, 0⟩]⟩] ⟨64, 1000, ⟨0, 64, false⟩, [], []⟩
    CommitErr.internal (by decide)

/-- The source's `checkFragments` accepts exactly the lists whose
adjacent pairs are contiguous. -/
theorem checkFragments_iff_chain (fs : List Fragment) :
    checkFragments fs = true ↔
      List.Chain' (fun f g => f.endOffset = g.startOffset) fs := by
  induction fs with
  | nil => simp [checkFragments]
  | cons f rest ih =>
    cases rest with
    | nil => simp [checkFragments]
    | cons g rest2 =>
      rw [checkFragments]
      by_cases hfg : f.endOffset = g.startOffset
      · rw [if_pos hfg, ih, List.chain'_cons]
        simp [hfg]
      · rw [if_neg hfg]
        simp [List.chain'_cons, hfg]

/-- Claim C7: given the kept list after trimming, `CommitAppend` fails
with an Internal error at this step if and only if some adjacent pair
of kept fragments violates `kept.endOffset == next.startOffset`
(negation of `List.Chain'` over adjacent pairs); in particular the head
fragment's start offset is not compared against the canonical offset —
only adjacent pairs decide the Internal failure. -/
theorem commitAppend_internal_iff (w c : Bool) (b : vsBlock)
    (frags kept : List Fragment)
    (h : trimFragments b.actx.offset frags = Except.ok kept) :
    (CommitAppend w c b frags).2 = CommitRes.err CommitErr.internal ↔
      ¬ List.Chain' (fun f g => f.endOffset = g.startOffset) kept := by
  unfold CommitAppend
  rw [h]
  cases kept with
  | nil => simp
  | cons f rest =>
    rw [← checkFragments_iff_chain]
    dsimp only
    by_cases hc : checkFragments (f :: rest) = true
    · have hnn : ¬ ¬ checkFragments (f :: rest) = true := fun hn => hn hc
      rw [if_pos hc, iff_false_intro hnn, iff_false]
      cases hbi : buildIndexes b f.startOffset (coalesce (f :: rest)) with
      | corrupted => simp
      | diverge => simp
      | ok idxs expected archived =>
        dsimp only
        by_cases hsc : archived = false ∧ idxs = []
        · rw [if_pos hsc]; simp
        · rw [if_neg hsc]
          by_cases hw : w = false
          · rw [if_pos hw]; simp
          · rw [if_neg hw]; simp
    · rw [if_neg hc]
      simp [hc]

theorem commitAppend_internal_iff_witness :
    (CommitAppend true true ⟨64, 1000, ⟨0, 64, false⟩, [], []⟩
        [⟨64, [⟨EntryType.CloudEvent, 0, 0, 0, 0⟩]⟩,
         ⟨100, [⟨EntryType.CloudEvent, 1, 0, 0, 0⟩]⟩]).2 =
      CommitRes.err CommitErr.internal := by
  refine (commitAppend_internal_iff true true ⟨64, 1000, ⟨0, 64, false⟩, [], []⟩
      [⟨64, [⟨EntryType.CloudEvent, 0, 0, 0, 0⟩]⟩,
       ⟨100, [⟨EntryType.CloudEvent, 1, 0, 0, 0⟩]⟩]
      [⟨64, [⟨EntryType.CloudEvent, 0, 0, 0, 0⟩]⟩,
       ⟨100, [⟨EntryType.CloudEvent, 1, 0, 0, 0⟩]⟩] (by rfl)).mpr ?_
  intro hch
  have := (List.chain'_cons.mp hch).1
  simp [Fragment.endOffset, Fragment.size, totalSize, codecSize] at this

/-- Claim C9: `NewAppendContext` with a last fragment decodes its last
entry and returns `{seq = lastSeq + 1, offset = last.EndOffset(),
archived = (lastType == End)}`; with no fragment it returns a copy of
the canonical context, and mutating that copy (here: advancing it
through `PrepareAppend`) leaves the block's canonical context
untouched. -/
theorem newAppendContext_spec (b : vsBlock) (frag : Fragment) (e : Entry)
    (entries : List EntryExt) (now : Int)
    (h : frag.payload.getLast? = some e) :
    NewAppendContext b (some frag) =
      some { seq := e.seq + 1, offset := frag.endOffset
             archived := decide (e.etype = EntryType.End) } ∧
    NewAppendContext b none = some b.actx ∧
    (PrepareAppend b b.actx entries now).blk = b := by
  refine ⟨?_, rfl, rfl⟩
  simp [NewAppendContext, UnmarshalLast, h]

theorem newAppendContext_spec_witness :
    NewAppendContext ⟨64, 1000, ⟨0, 64, false⟩, [], []⟩
        (some ⟨64, [⟨EntryType.CloudEvent, 0, 0, 0, 0⟩, ⟨EntryType.End, 1, 0, 0, 0⟩]⟩) =
      some ⟨2, 126, true⟩ ∧
    NewAppendContext ⟨64, 1000, ⟨0, 64, false⟩, [], []⟩ none = some ⟨0, 64, false⟩ := by
  have h := newAppendContext_spec ⟨64, 1000, ⟨0, 64, false⟩, [], []⟩
    ⟨64, [⟨EntryType.CloudEvent, 0, 0, 0, 0⟩, ⟨EntryType.End, 1, 0, 0, 0⟩]⟩
    ⟨EntryType.End, 1, 0, 0, 0⟩ [] 0 (by decide)
  exact ⟨by rw [h.1]; decide, h.2.1⟩

set_option linter.unusedVariables false in
/-- Claim C6: for a detached context `c0` and a non-empty entry list of
length `n`, `PrepareAppend` returns the sequence numbers
`c0.seq .. c0.seq + n - 1` in order, one fragment starting at
`c0.offset` whose payload is the wrapped entries and whose size is
their total codec size, the detached context advanced by the fragment
size and by `n`, and `full` evaluated on the advanced context's offset;
it reports no error and returns the block unchanged (its canonical
state is only read). The equality is definitional — `PrepareAppend` is
straight-line — and holds for the empty list too; the non-emptiness
hypothesis is kept because the claim quantifies over non-empty lists. -/
theorem prepareAppend_spec (b : vsBlock) (c0 : appendContext)
    (entries : List EntryExt) (now : Int) (h : entries ≠ []) :
    PrepareAppend b c0 entries now =
      { blk := b
        seqs := (List.range entries.length).map fun i => c0.seq + i
        frag := ⟨c0.offset,
          entries.enum.map fun p => wrapEntry p.2 EntryType.CloudEvent (c0.seq + p.1) now⟩
        actx := ⟨c0.seq + entries.length,
          c0.offset + (totalSize (entries.enum.map fun p =>
            wrapEntry p.2 EntryType.CloudEvent (c0.seq + p.1) now) : Int),
          c0.archived⟩
        full := decide (c0.offset + (totalSize (entries.enum.map fun p =>
            wrapEntry p.2 EntryType.CloudEvent (c0.seq + p.1) now) : Int)
          - b.dataOffset ≥ b.capacity) } := rfl

theorem prepareAppend_spec_witness :
    PrepareAppend ⟨64, 1000, ⟨0, 64, false⟩, [], []⟩ ⟨3, 200, false⟩
        [⟨0, 10⟩, ⟨5, 20⟩] 42 =
      { blk := ⟨64, 1000, ⟨0, 64, false⟩, [], []⟩
        seqs := [3, 4]
        frag := ⟨200, [⟨EntryType.CloudEvent, 3, 42, 0, 10⟩,
                       ⟨EntryType.CloudEvent, 4, 42, 5, 20⟩]⟩
        actx := ⟨5, 297, false⟩
        full := false } := by
  rw [prepareAppend_spec ⟨64, 1000, ⟨0, 64, false⟩, [], []⟩ ⟨3, 200, false⟩
    [⟨0, 10⟩, ⟨5, 20⟩] 42 (by decide)]
  decide

/-- Claim C2: committing is idempotent — if a `CommitAppend` of `L`
succeeds (returns a nil error), a second `CommitAppend` of the same `L`
returns `(false, nil)` and leaves the final canonical context and index
table (indeed the whole block, file included) exactly as after the
first commit: every fragment of `L` now ends at or below the advanced
canonical offset, so the trim phase discards all of them. -/
theorem commitAppend_idempotent (w c w2 c2 : Bool) (b : vsBlock)
    (L : List Fragment) (b2 : vsBlock) (r : Bool)
    (h : CommitAppend w c b L = (b2, CommitRes.ok r)) :
    CommitAppend w2 c2 b2 L = (b2, CommitRes.ok false) := by
  unfold CommitAppend at h
  cases htf : trimFragments b.actx.offset L with
  | error e =>
    rw [htf] at h
    dsimp only at h
    injection h with h1 h2
    cases h2
  | ok kept =>
    rw [htf] at h
    cases kept with
    | nil =>
      dsimp only at h
      injection h with h1 h2
      subst h1
      unfold CommitAppend
      rw [htf]
    | cons f rest =>
      dsimp only at h
      by_cases hchk : checkFragments (f :: rest) = true
      · rw [if_pos hchk] at h
        cases hbi : buildIndexes b f.startOffset (coalesce (f :: rest)) with
        | corrupted =>
          rw [hbi] at h; dsimp only at h
          injection h with h1 h2; cases h2
        | diverge =>
          rw [hbi] at h; dsimp only at h
          injection h with h1 h2; cases h2
        | ok idxs expected archived =>
          rw [hbi] at h
          dsimp only at h
          by_cases hsc : archived = false ∧ idxs = []
          · rw [if_pos hsc] at h
            injection h with h1 h2
            subst h1
            unfold CommitAppend
            rw [htf]
            dsimp only
            rw [if_pos hchk, hbi]
            dsimp only
            rw [if_pos hsc]
          · rw [if_neg hsc] at h
            by_cases hw : w = false
            · rw [if_pos hw] at h
              injection h with h1 h2; cases h2
            · rw [if_neg hw] at h
              injection h with h1 h2
              have hhead := trimFragments_head b.actx.offset L f rest htf
              have hmem := trimFragments_mem b.actx.offset L (f :: rest) htf
              have hchain := checkFragments_end_le f rest hchk
              have hoff : b2.actx.offset =
                  f.startOffset + (totalSize (coalesce (f :: rest)) : Int) := by
                rw [← h1]
                simp [commitUpdate]
                ring
              have hall : ∀ g ∈ L, g.endOffset ≤ b2.actx.offset := by
                intro g hg
                rcases hmem g hg with hle | hk
                · have hlt : b.actx.offset < f.endOffset := hhead.2
                  have hfe : f.endOffset ≤
                      f.startOffset + (totalSize (coalesce (f :: rest)) : Int) :=
                    hchain f (List.mem_cons_self f rest)
                  rw [hoff]
                  omega
                · rw [hoff]
                  exact hchain g hk
              have ht2 := trimFragments_all_dropped b2.actx.offset L hall
              unfold CommitAppend
              rw [ht2]
      · rw [if_neg hchk] at h
        injection h with h1 h2
        cases h2

theorem commitAppend_idempotent_witness :
    CommitAppend false false
        ⟨64, 1000, ⟨2, 126, false⟩, [⟨64, 31, 0⟩, ⟨95, 31, 1⟩],
          [(64, [⟨EntryType.CloudEvent, 0, 0, 0, 0⟩, ⟨EntryType.CloudEvent, 1, 0, 0, 0⟩])]⟩
        [⟨64, [⟨EntryType.CloudEvent, 0, 0, 0, 0⟩, ⟨EntryType.CloudEvent, 1, 0, 0, 0⟩]⟩] =
      (⟨64, 1000, ⟨2, 126, false⟩, [⟨64, 31, 0⟩, ⟨95, 31, 1⟩],
          [(64, [⟨EntryType.CloudEvent, 0, 0, 0, 0⟩, ⟨EntryType.CloudEvent, 1, 0, 0, 0⟩])]⟩,
        CommitRes.ok false) := by
  exact commitAppend_idempotent true true false false
    ⟨64, 1000, ⟨0, 64, false⟩, [], []⟩
    [⟨64, [⟨EntryType.CloudEvent, 0, 0, 0, 0⟩, ⟨EntryType.CloudEvent, 1, 0, 0, 0⟩]⟩]
    ⟨64, 1000, ⟨2, 126, false⟩, [⟨64, 31, 0⟩, ⟨95, 31, 1⟩],
      [(64, [⟨EntryType.CloudEvent, 0, 0, 0, 0⟩, ⟨EntryType.CloudEvent, 1, 0, 0, 0⟩])]⟩
    false (by decide)

end Vsb
